import Mathlib

/-!
# Muscollo / tropter: solver life cycle, sliding-mass test problem, iterates

A shallow embedding of

* `Muscollo/Muscollo/MucoSolver.cpp` (attach / detach / solve of a `MucoSolver`),
* `tropter/tests/test_path_constraints.cpp` (the sliding-mass problem with the
  path constraint `F = m a` and its closed-form bang-bang solution),
* `tropter/tropter/optimalcontrol/OptimalControlIterate.h` (the iterate
  record, its interpolation and its CSV file format).

Real numbers of the program (`double`) are embedded as exact rationals `ℚ`.
-/

namespace OpenSim

/-! ## MucoSolver.cpp -/

/-- The base-class part and the derived-class part of a `MucoSolver` object.
`m_problem` is the `SimTK::ReferencePtr<const MucoProblem>` member: `none` is the
null reference, `some p` refers to the problem `p`. `derived` is whatever a
concrete solver keeps besides (the base class itself has no other member). -/
structure MucoSolver (P D : Type) where
  m_problem : Option P
  derived : D
  deriving DecidableEq

/-- The three virtual hooks that `MucoSolver.cpp` calls and a concrete solver
overrides. A hook reads the whole object (it may look at the attached problem)
and can change only the derived part, `m_problem` being private to the base
class; `solveImpl` is `const` and yields a solution or throws. -/
structure MucoSolverImpl (P D S E : Type) where
  resetProblemImpl : MucoSolver P D → D
  resetProblemImplWith : P → MucoSolver P D → D
  solveImpl : MucoSolver P D → Except E S

variable {P D S E : Type}

/-- The constructor `MucoSolver::MucoSolver() {}`: nothing attached, the derived
part as its own default construction `d0` leaves it. -/
def MucoSolver.default (d0 : D) : MucoSolver P D :=
  { m_problem := none, derived := d0 }

/-- The method `void MucoSolver::resetProblem()`:
`m_problem.reset(); resetProblemImpl();` -/
def MucoSolver.resetProblem (impl : MucoSolverImpl P D S E) (s : MucoSolver P D) :
    MucoSolver P D :=
  let s1 : MucoSolver P D := { s with m_problem := none }
  { s1 with derived := impl.resetProblemImpl s1 }

/-- The method `void MucoSolver::resetProblem(const MucoProblem& problem)`:
`m_problem.reset(&problem); resetProblemImpl(problem);` -/
def MucoSolver.resetProblemWith (impl : MucoSolverImpl P D S E) (problem : P)
    (s : MucoSolver P D) : MucoSolver P D :=
  let s1 : MucoSolver P D := { s with m_problem := some problem }
  { s1 with derived := impl.resetProblemImplWith problem s1 }

/-- What the class `MucoSolver` itself holds for the virtual
`resetProblemImpl(const MucoProblem&)`, the function that a virtual call reaches
while the `MucoSolver` part of an object is still under construction: nothing
(the hook is pure virtual) or a body of its own. Such a body belongs to the base
class, so it has only `m_problem` to act on: it maps the problem passed and the
current `m_problem` to the new `m_problem`. -/
inductive BaseHook (P : Type) where
  | pureVirtual : BaseHook P
  | body : (P → Option P → Option P) → BaseHook P

/-- The constructor
`MucoSolver::MucoSolver(const MucoProblem& problem) : MucoSolver() { resetProblem(problem); }`.
The call `resetProblemImpl(problem)` inside `resetProblem(problem)` is made while
the base class is under construction, so it is dispatched to the hook of
`MucoSolver` itself, never to the override of the concrete solver: with a pure
virtual hook the call has no function to run and no object results (`none`);
with a body in the base class that body runs, and the derived part is
constructed afterwards as `d0`. -/
def MucoSolver.mkWith (base : BaseHook P) (d0 : D) (problem : P) :
    Option (MucoSolver P D) :=
  match base with
  | BaseHook.pureVirtual => none
  | BaseHook.body f => some { m_problem := f problem (some problem), derived := d0 }

/-- The method `MucoSolution MucoSolver::solve() const { return solveImpl(); }` -/
def MucoSolver.solve (impl : MucoSolverImpl P D S E) (s : MucoSolver P D) : Except E S :=
  impl.solveImpl s

/-- A concrete solver whose `solveImpl` hands back a stored solution without
looking at the problem, and whose reset hooks count their invocations. -/
def countingImpl : MucoSolverImpl Nat Nat Nat String where
  resetProblemImpl := fun s => s.derived + 1
  resetProblemImplWith := fun _ s => s.derived + 1
  solveImpl := fun s => Except.ok s.derived

end OpenSim

namespace tropter

/-! ## OptimalControlIterate.h -/

/-- The record `struct OptimalControlIterate`. `time` is the row vector of time
points; `states` and `controls` are the matrices, kept as the list of their rows
(one row per variable, one column per time point). -/
structure OptimalControlIterate where
  time : List ℚ
  states : List (List ℚ)
  controls : List (List ℚ)
  state_names : List String
  control_names : List String
  deriving DecidableEq

/-- The invariant of an iterate: every state row and every control row has one
entry per time point, and there is one name per row. -/
def OptimalControlIterate.WellFormed (it : OptimalControlIterate) : Prop :=
  (∀ row ∈ it.states, row.length = it.time.length) ∧
  (∀ row ∈ it.controls, row.length = it.time.length) ∧
  it.state_names.length = it.states.length ∧
  it.control_names.length = it.controls.length

/-- Column `k` of a matrix kept by rows. -/
def column (m : List (List ℚ)) (k : Nat) : List ℚ :=
  m.map (fun row => row.getD k 0)

/-- Modelled from the spec: the evenly spaced grid of `n` points that spans
`[low, high]` (the grid constructor of the linear-algebra library is not part of
the sources): point `i` is `low + i * (high - low) / (n - 1)`. -/
def linspace (n : Nat) (low high : ℚ) : List ℚ :=
  (List.range n).map (fun (i : Nat) => low + (i : ℚ) * ((high - low) / ((n : ℚ) - 1)))

/-- Modelled from the spec: linear interpolation of the samples `(ts, ys)` of one
row at the query time `tq` (the interpolation routine is not part of the
sources). The value is taken on the first interval `[t0, t1]` that contains
`tq`; outside the range of `ts`, where the result would be an extrapolation,
there is no value. -/
def interp1 : List ℚ → List ℚ → ℚ → Option ℚ
  | t0 :: t1 :: ts, y0 :: y1 :: ys, tq =>
      if tq < t0 then none
      else if tq ≤ t1 then some (y0 + (y1 - y0) * ((tq - t0) / (t1 - t0)))
      else interp1 (t1 :: ts) (y1 :: ys) tq
  | [t0], [y0], tq => if tq = t0 then some y0 else none
  | _, _, _ => none

/-- Modelled from the spec: every row of a matrix resampled from the time points
`ts` onto the time points `qs`, each row on its own. -/
def interpRows (ts : List ℚ) (m : List (List ℚ)) (qs : List ℚ) : Option (List (List ℚ)) :=
  m.mapM (fun row => qs.mapM (interp1 ts row))

/-- Modelled from the spec: the method `interpolate(int desired_num_columns)`,
declared in `OptimalControlIterate.h` and defined outside the sources. When the
size of `time` matches `desired_num_columns` the result is a copy of the iterate
(no interpolation); otherwise every state and control row is linearly
interpolated onto the equally spaced grid of `desired_num_columns` points from
the first to the last time point, and the names are kept. There is no result for
a negative count, for an iterate without time points, or when a row cannot be
interpolated. -/
def OptimalControlIterate.interpolate (it : OptimalControlIterate)
    (desired_num_columns : Int) : Option OptimalControlIterate :=
  if (it.time.length : Int) = desired_num_columns then some it
  else if desired_num_columns < 0 then none
  else
    match it.time.head?, it.time.getLast? with
    | some first, some last =>
        let newTime := linspace desired_num_columns.toNat first last
        match interpRows it.time it.states newTime, interpRows it.time it.controls newTime with
        | some states, some controls =>
            some { time := newTime
                   states := states
                   controls := controls
                   state_names := it.state_names
                   control_names := it.control_names }
        | _, _ => none
    | _, _ => none

/-- An iterate of three time points whose middle value is a peak. -/
def peakIterate : OptimalControlIterate where
  time := [0, 1 / 2, 1]
  states := [[0, 1, 0]]
  controls := [[0, 1, 0]]
  state_names := ["x"]
  control_names := ["a"]

/-! ### The CSV file format of an iterate -/

/-- All numbers held by an iterate. -/
def OptimalControlIterate.values (it : OptimalControlIterate) : List ℚ :=
  it.time ++ it.states.flatten ++ it.controls.flatten

/-- The decimal digits of a count, as an output stream prints an integer. -/
def natToChars (n : Nat) : List Char := Nat.toDigits 10 n

/-- The count written as a non-empty run of decimal digits, read back. -/
def charsToNat (s : List Char) : Option Nat :=
  if s ≠ [] ∧ s.all Char.isDigit = true then
    some (s.foldl (fun acc c => 10 * acc + (c.toNat - 48)) 0)
  else none

/-- The rest of `s` after the leading text `p`, when `s` starts with `p`. -/
def dropLeading : List Char → List Char → Option (List Char)
  | [], s => some s
  | _ :: _, [] => none
  | c :: p, d :: s => if c = d then dropLeading p s else none

/-- One line of comma-separated fields. -/
def csvLine (fields : List (List Char)) : List Char := [','].intercalate fields

/-- The lines of a text: the pieces between line breaks, the empty piece after a
final line break not counted. -/
def textLines (file : List Char) : List (List Char) :=
  let pieces := file.splitOn '\n'
  if pieces.getLast? = some [] then pieces.dropLast else pieces

/-- Modelled from the spec: the method `write` (declared in
`OptimalControlIterate.h`, defined outside the sources), producing the text of
the file in the format of the header's documentation: `num_states=<K>`,
`num_controls=<M>`, the line `time,<state names>,<control names>`, then one line
of numbers per time point (time, states, controls), every line ended by a line
break. `fmt` is the text that the stream prints for a number. -/
def OptimalControlIterate.write (fmt : ℚ → List Char) (it : OptimalControlIterate) :
    List Char :=
  let header := csvLine ("time".toList :: (it.state_names ++ it.control_names).map String.toList)
  let row : Nat → List Char := fun j =>
    csvLine (fmt (it.time.getD j 0) :: (column it.states j ++ column it.controls j).map fmt)
  let lines :=
    ("num_states=".toList ++ natToChars it.states.length) ::
    ("num_controls=".toList ++ natToChars it.controls.length) ::
    header :: (List.range it.time.length).map row
  (lines.map (fun l => l ++ ['\n'])).flatten

/-- Modelled from the spec: the constructor `OptimalControlIterate(filepath)`
(declared in `OptimalControlIterate.h`, defined outside the sources) on the text
of a file generated by `write`. `parse` reads one number. A file without the
three leading lines, with a header whose number of columns is not
`1 + K + M`, with a row of another length or with a field that is not a
number is an error. -/
def OptimalControlIterate.read (parse : List Char → Option ℚ) (file : List Char) :
    Option OptimalControlIterate :=
  match textLines file with
  | l1 :: l2 :: header :: rows =>
    match (dropLeading "num_states=".toList l1).bind charsToNat,
          (dropLeading "num_controls=".toList l2).bind charsToNat with
    | some numStates, some numControls =>
      let cols := header.splitOn ','
      if cols.length ≠ 1 + numStates + numControls then none
      else
        match rows.mapM (fun r => (r.splitOn ',').mapM parse) with
        | some data =>
          if data.all (fun r => decide (r.length = 1 + numStates + numControls)) = true then
            some { time := data.map (fun r => r.getD 0 0)
                   states := (List.range numStates).map
                     (fun i => data.map (fun r => r.getD (1 + i) 0))
                   controls := (List.range numControls).map
                     (fun i => data.map (fun r => r.getD (1 + numStates + i) 0))
                   state_names := ((cols.drop 1).take numStates).map String.mk
                   control_names := (cols.drop (1 + numStates)).map String.mk }
          else none
        | none => none
    | _, _ => none
  | _ => none

/-- The decimal digits of `n` in exactly `w` places: leading zeros are printed,
places above the `w`-th are dropped. -/
def fixedDigits : Nat → Nat → List Char
  | 0, _ => []
  | w + 1, n => fixedDigits w (n / 10) ++ [Nat.digitChar (n % 10)]

/-- The number of units `10^-p` nearest to `v`, halves rounded up. -/
def roundUnits (p : Nat) (v : ℚ) : Int := Int.floor (v * 10 ^ p + 1 / 2)

/-- The number with `p` decimal places nearest to `v`. -/
def roundTo (p : Nat) (v : ℚ) : ℚ := (roundUnits p v : ℚ) / 10 ^ p

/-- Modelled from the spec: the fixed decimal representation of a number with
`p` places after the point (the precision of the file): a minus sign for a
negative number, the digits of the whole part, and for `p > 0` the point and
exactly `p` digits. -/
def fmtFixed (p : Nat) (v : ℚ) : List Char :=
  (if roundUnits p v < 0 then ['-'] else []) ++
    natToChars ((roundUnits p v).natAbs / 10 ^ p) ++
    (if p = 0 then [] else '.' :: fixedDigits p ((roundUnits p v).natAbs % 10 ^ p))

/-- The value of a run of decimal digits, the empty run counting as zero. -/
def digitsValue (s : List Char) : Option Nat :=
  if s.all Char.isDigit = true then
    some (s.foldl (fun acc c => 10 * acc + (c.toNat - 48)) 0)
  else none

/-- A decimal number without sign read back: digits, or digits, a point and
digits. -/
def parseUnsigned (s : List Char) : Option ℚ :=
  match s.splitOn '.' with
  | [whole] => (charsToNat whole).map (fun i => (i : ℚ))
  | [whole, frac] =>
    match charsToNat whole, digitsValue frac with
    | some i, some f => some ((i : ℚ) + (f : ℚ) / 10 ^ frac.length)
    | _, _ => none
  | _ => none

/-- Modelled from the spec: a number in decimal representation read back, with
an optional leading minus sign. -/
def parseFixed (s : List Char) : Option ℚ :=
  match s with
  | [] => none
  | c :: r => if c = '-' then (parseUnsigned r).map (fun m => -m) else parseUnsigned (c :: r)

/-- An iterate with every number replaced by its image under `g`. -/
def OptimalControlIterate.mapValues (g : ℚ → ℚ) (it : OptimalControlIterate) :
    OptimalControlIterate where
  time := it.time.map g
  states := it.states.map (fun row => row.map g)
  controls := it.controls.map (fun row => row.map g)
  state_names := it.state_names
  control_names := it.control_names

/-- A well-formed iterate with plain names and numbers of at most two decimal
places. -/
def plainIterate : OptimalControlIterate where
  time := [0, 1 / 2, 2]
  states := [[0, 1 / 4, 2], [3, -4, 5 / 100]]
  controls := [[7, -3 / 4, 10]]
  state_names := ["x", "u"]
  control_names := ["F"]

/-- A well-formed iterate with a comma in a state name. -/
def commaIterate : OptimalControlIterate where
  time := [0, 1]
  states := [[0, 2]]
  controls := [[1, 3]]
  state_names := ["a,b"]
  control_names := ["c"]

/-- Another well-formed iterate, with the comma in the control name. -/
def commaIterate2 : OptimalControlIterate where
  time := [0, 1]
  states := [[0, 2]]
  controls := [[1, 3]]
  state_names := ["a"]
  control_names := ["b,c"]

/-! ## tests/test_path_constraints.cpp -/

/-- A pair of bounds `{lower, upper}`; `{v}` is `Bounds.single v`. -/
structure Bounds where
  lower : ℚ
  upper : ℚ
  deriving DecidableEq

/-- The one-value bounds `{v}`. -/
def Bounds.single (v : ℚ) : Bounds := { lower := v, upper := v }

/-- A value lies within the bounds. -/
def Bounds.Contains (b : Bounds) (v : ℚ) : Prop := b.lower ≤ v ∧ v ≤ b.upper

/-- What `add_state` / `add_control` record for one variable; bounds that the
call does not pass are `none`. -/
structure ContinuousVariableInfo where
  name : String
  bounds : Bounds
  initial_bounds : Option Bounds
  final_bounds : Option Bounds
  deriving DecidableEq

/-- The declarations made by the constructor of an optimal control problem. -/
structure ProblemDeclaration where
  initial_time_bounds : Bounds
  final_time_bounds : Bounds
  state_infos : List ContinuousVariableInfo
  control_infos : List ContinuousVariableInfo
  path_constraint_infos : List (String × Bounds)
  deriving DecidableEq

/-- One variable of an iterate respects what was declared for it: its row is
within `bounds` at each of the `n` time points, within the initial bounds (when
declared) at the first time point and within the final bounds (when declared)
at the last one. -/
def ContinuousVariableInfo.Admits (info : ContinuousVariableInfo) (n : Nat)
    (row : List ℚ) : Prop :=
  (∀ k, k < n → info.bounds.Contains (row.getD k 0)) ∧
  (∀ b, info.initial_bounds = some b → b.Contains (row.getD 0 0)) ∧
  (∀ b, info.final_bounds = some b → b.Contains (row.getD (n - 1) 0))

/-- An iterate respects the declarations of a problem: one row per declared
state and per declared control, each row respecting its declaration. -/
def ProblemDeclaration.Admits (d : ProblemDeclaration) (it : OptimalControlIterate) : Prop :=
  it.states.length = d.state_infos.length ∧
  it.controls.length = d.control_infos.length ∧
  (∀ p ∈ List.zip d.state_infos it.states, p.1.Admits it.time.length p.2) ∧
  (∀ p ∈ List.zip d.control_infos it.controls, p.1.Admits it.time.length p.2)

namespace SlidingMassPathConstraint

/-- The member `const double mass = 10.0;` -/
def mass : ℚ := 10

/-- The member `const double Fmax = 10;` -/
def Fmax : ℚ := 10

/-- The constructor `SlidingMassPathConstraint()`: `set_time({0}, {0, 10})`,
`add_state("x", {0, 1}, {0}, {1})`, `add_state("u", {-100, 100}, {0}, {0})`,
`add_control("a", {-100, 100})`, `add_control("F", {-Fmax, Fmax})`,
`add_path_constraint("F=ma", 0)`. -/
def declaration : ProblemDeclaration where
  initial_time_bounds := Bounds.single 0
  final_time_bounds := { lower := 0, upper := 10 }
  state_infos :=
    [ { name := "x", bounds := { lower := 0, upper := 1 },
        initial_bounds := some (Bounds.single 0), final_bounds := some (Bounds.single 1) },
      { name := "u", bounds := { lower := -100, upper := 100 },
        initial_bounds := some (Bounds.single 0), final_bounds := some (Bounds.single 0) } ]
  control_infos :=
    [ { name := "a", bounds := { lower := -100, upper := 100 },
        initial_bounds := none, final_bounds := none },
      { name := "F", bounds := { lower := -Fmax, upper := Fmax },
        initial_bounds := none, final_bounds := none } ]
  path_constraint_infos := [("F=ma", Bounds.single 0)]

/-- The callback `calc_endpoint_cost`: `cost = final_time`. -/
def calc_endpoint_cost (final_time : ℚ) (_final_states : List ℚ) : ℚ := final_time

/-- The last entry `time[time.size() - 1]` that the three lambdas of
`actual_solution` read. -/
def finalTime (time : List ℚ) : ℚ := time.getD (time.length - 1) 0

/-- The lambda `x` of `actual_solution`. -/
def xOf (time : List ℚ) (t : ℚ) : ℚ :=
  if t < (1 / 2) * finalTime time then (1 / 2) * t * t
  else (-1 / 2) * (t - 1) * (t - 1) + 1 * (t - 1) + 1 / 2

/-- The lambda `u` of `actual_solution`. -/
def uOf (time : List ℚ) (t : ℚ) : ℚ :=
  if t < (1 / 2) * finalTime time then t else 2 - t

/-- The lambda `F` of `actual_solution`. -/
def FOf (time : List ℚ) (t : ℚ) : ℚ :=
  if t < (1 / 2) * finalTime time then Fmax else -Fmax

/-- The method `OptimalControlSolution actual_solution(const VectorXd& time)`: state rows
`x`, `u`; control row 1 is `F`, control row 0 is `a = F / mass`. -/
def actual_solution (time : List ℚ) : OptimalControlIterate :=
  let rowF := time.map (FOf time)
  { time := time
    states := [time.map (xOf time), time.map (uOf time)]
    controls := [rowF.map (fun f => f / mass), rowF]
    state_names := []
    control_names := [] }

end SlidingMassPathConstraint

end tropter

/-! # Theorems -/

namespace OpenSim

variable {P D S E : Type}

/-- C1 (as the code has it): after `resetProblem()` with no argument, `solve()`
returns exactly what the `solveImpl` hook returns on the solver without an
attached problem; the base class makes no check of its own, so an exception is
raised only if the hook raises it. -/
theorem solve_after_resetProblem (impl : MucoSolverImpl P D S E) (s : MucoSolver P D) :
    MucoSolver.solve impl (MucoSolver.resetProblem impl s) =
      impl.solveImpl
        { m_problem := none,
          derived := impl.resetProblemImpl { m_problem := none, derived := s.derived } } := by
  rfl

/-- C1 fails as stated: for a solver whose `solveImpl` does not look at the
problem, `resetProblem()` followed by `solve()` returns a solution, whether a
problem was attached before (`some 7`) or not. -/
theorem solve_after_resetProblem_returns :
    MucoSolver.solve countingImpl
        (MucoSolver.resetProblem countingImpl { m_problem := some 7, derived := 0 }) =
      Except.ok 1 ∧
    MucoSolver.solve countingImpl
        (MucoSolver.resetProblem countingImpl (MucoSolver.default 0)) =
      Except.ok 1 := by
  constructor <;> rfl

/-- From every solver state, `resetProblem(p)` leaves exactly `p` attached and
the derived part is the result of the hook `resetProblemImpl(p)` run on the
solver that already refers to `p`. -/
theorem resetProblemWith_state (impl : MucoSolverImpl P D S E) (p : P)
    (s : MucoSolver P D) :
    (MucoSolver.resetProblemWith impl p s).m_problem = some p ∧
    (MucoSolver.resetProblemWith impl p s).derived =
      impl.resetProblemImplWith p { m_problem := some p, derived := s.derived } := by
  exact ⟨rfl, rfl⟩

/-- C6: `resetProblem(p)` on a default-constructed counting solver gives the
state with `p = 5` attached and the hook run once (`derived = 1`), but the
constructor `MucoSolver(p)` does not give that state, whatever the base class
holds for the hook: with a pure virtual hook no object results, and with a body
in the base class the problem is attached while the override of the concrete
solver has not run (`derived = 0`). -/
theorem constructor_misses_override :
    MucoSolver.resetProblemWith countingImpl 5 (MucoSolver.default 0) =
      { m_problem := some 5, derived := 1 } ∧
    (∀ base : BaseHook Nat,
      MucoSolver.mkWith base 0 5 ≠
        some (MucoSolver.resetProblemWith countingImpl 5 (MucoSolver.default 0))) ∧
    MucoSolver.mkWith BaseHook.pureVirtual 0 5 = (none : Option (MucoSolver Nat Nat)) ∧
    MucoSolver.mkWith (BaseHook.body (fun _ m => m)) 0 5 =
      some ({ m_problem := some 5, derived := 0 } : MucoSolver Nat Nat) := by
  refine ⟨rfl, ?_, rfl, rfl⟩
  intro base h
  cases base with
  | pureVirtual => simp [MucoSolver.mkWith] at h
  | body f =>
    have hd := congrArg (fun o => o.map (fun s => s.derived)) h
    simp [MucoSolver.mkWith, MucoSolver.resetProblemWith, MucoSolver.default, countingImpl] at hd

/-- C7: from every solver state, `resetProblem()` with no argument leaves no
problem attached, whatever was attached before, and the derived part is the
result of the no-argument hook `resetProblemImpl()` run on the detached
solver. -/
theorem resetProblem_detaches (impl : MucoSolverImpl P D S E) (s : MucoSolver P D) :
    (MucoSolver.resetProblem impl s).m_problem = none ∧
    (MucoSolver.resetProblem impl s).derived =
      impl.resetProblemImpl { m_problem := none, derived := s.derived } := by
  exact ⟨rfl, rfl⟩

end OpenSim

namespace tropter

theorem getD_map_of_lt {α β : Type} (f : α → β) (l : List α) (k : Nat) (a : α) (b : β)
    (hk : k < l.length) : (l.map f).getD k b = f (l.getD k a) := by
  simp [List.getD_eq_getElem?_getD, List.getElem?_map, List.getElem?_eq_getElem hk]

theorem linspace_length (n : Nat) (a b : ℚ) : (linspace n a b).length = n := by
  simp [linspace]

theorem linspace_getD (n : Nat) (a b : ℚ) (k : Nat) (hk : k < n) :
    (linspace n a b).getD k 0 = a + (k : ℚ) * ((b - a) / ((n : ℚ) - 1)) := by
  unfold linspace
  rw [getD_map_of_lt _ _ k 0 0 (by simpa using hk)]
  simp [List.getD_eq_getElem?_getD, List.getElem?_range hk]

theorem linspace_getD_last (n : Nat) (a b : ℚ) (hn : 2 ≤ n) :
    (linspace n a b).getD (n - 1) 0 = b := by
  rw [linspace_getD n a b (n - 1) (by omega)]
  have h1 : ((n - 1 : Nat) : ℚ) = (n : ℚ) - 1 := by
    rw [Nat.cast_sub (by omega)]; simp
  have h2 : ((n : ℚ) - 1) ≠ 0 := by
    have : (2 : ℚ) ≤ (n : ℚ) := by exact_mod_cast hn
    intro h; linarith
  rw [h1]
  field_simp

end tropter

namespace tropter

namespace SlidingMassPathConstraint

/-- Every entry of a non-decreasing list lies between its first and its last
entry. -/
theorem sorted_between (time : List ℚ) (a b : ℚ) (hs : time.Sorted (· ≤ ·))
    (h0 : time[0]? = some a) (hl : time[time.length - 1]? = some b)
    (k : Nat) (hk : k < time.length) : a ≤ time.getD k 0 ∧ time.getD k 0 ≤ b := by
  have hp := List.pairwise_iff_getElem.mp hs
  have hpos : 0 < time.length := by omega
  have hlast : time.length - 1 < time.length := by omega
  rw [List.getElem?_eq_getElem hpos] at h0
  rw [List.getElem?_eq_getElem hlast] at hl
  simp only [Option.some.injEq] at h0 hl
  rw [List.getD_eq_getElem _ _ hk]
  constructor
  · rcases Nat.eq_zero_or_pos k with h | h
    · subst h; exact le_of_eq h0.symm
    · rw [← h0]; exact hp 0 k hpos hk h
  · rcases Nat.lt_or_ge k (time.length - 1) with h | h
    · rw [← hl]; exact hp k (time.length - 1) hk hlast h
    · have : k = time.length - 1 := by omega
      subst this; exact le_of_eq hl

theorem xOf_bounds (time : List ℚ) (hf : finalTime time = 2) (t : ℚ) (h0 : 0 ≤ t)
    (h2 : t ≤ 2) : 0 ≤ xOf time t ∧ xOf time t ≤ 1 := by
  unfold xOf
  rw [hf]
  split_ifs with h
  · constructor <;> nlinarith
  · have h1 : 1 ≤ t := by linarith
    constructor <;> nlinarith

theorem uOf_bounds (time : List ℚ) (hf : finalTime time = 2) (t : ℚ) (h0 : 0 ≤ t)
    (h2 : t ≤ 2) : -100 ≤ uOf time t ∧ uOf time t ≤ 100 := by
  unfold uOf
  rw [hf]
  split_ifs with h <;> constructor <;> linarith

theorem FOf_bounds (time : List ℚ) (t : ℚ) :
    (-10 ≤ FOf time t ∧ FOf time t ≤ 10) ∧
    (-100 ≤ FOf time t / mass ∧ FOf time t / mass ≤ 100) := by
  unfold FOf Fmax mass
  split_ifs <;> norm_num

/-- C10: for every non-decreasing time vector that starts at 0 and ends at 2,
the expected solution has `x = 0`, `u = 0` at the first time point, `x = 1`,
`u = 0` at the last one, and at every time point `x ∈ [0, 1]`, `u ∈ [-100, 100]`,
`a ∈ [-100, 100]`, `F ∈ [-10, 10]`; these are the bounds the constructor
declares (`declaration.Admits`); and at the switching time `t = 1` the value of
`x` and of `u` (second branch) is the value of the first branch. -/
theorem actual_solution_meets_declaration (time : List ℚ) (hs : time.Sorted (· ≤ ·))
    (h0 : time[0]? = some 0) (hl : time[time.length - 1]? = some 2) :
    ((actual_solution time).states.getD 0 []).getD 0 0 = 0 ∧
    ((actual_solution time).states.getD 1 []).getD 0 0 = 0 ∧
    ((actual_solution time).states.getD 0 []).getD (time.length - 1) 0 = 1 ∧
    ((actual_solution time).states.getD 1 []).getD (time.length - 1) 0 = 0 ∧
    (∀ k, k < time.length →
      (0 ≤ ((actual_solution time).states.getD 0 []).getD k 0 ∧
        ((actual_solution time).states.getD 0 []).getD k 0 ≤ 1) ∧
      (-100 ≤ ((actual_solution time).states.getD 1 []).getD k 0 ∧
        ((actual_solution time).states.getD 1 []).getD k 0 ≤ 100) ∧
      (-100 ≤ ((actual_solution time).controls.getD 0 []).getD k 0 ∧
        ((actual_solution time).controls.getD 0 []).getD k 0 ≤ 100) ∧
      (-10 ≤ ((actual_solution time).controls.getD 1 []).getD k 0 ∧
        ((actual_solution time).controls.getD 1 []).getD k 0 ≤ 10)) ∧
    declaration.Admits (actual_solution time) ∧
    xOf time 1 = (1 / 2) * 1 * 1 ∧ uOf time 1 = 1 := by
  have hne : time ≠ [] := by
    intro h; subst h; simp at h0
  have hpos : 0 < time.length := List.length_pos.mpr hne
  have hlast : time.length - 1 < time.length := by omega
  have hf : finalTime time = 2 := by
    simp [finalTime, List.getD_eq_getElem?_getD, hl]
  have ht0 : time.getD 0 0 = 0 := by simp [List.getD_eq_getElem?_getD, h0]
  have htl : time.getD (time.length - 1) 0 = 2 := hf
  have hx : ∀ k, k < time.length →
      (time.map (xOf time)).getD k 0 = xOf time (time.getD k 0) :=
    fun k hk => getD_map_of_lt _ _ _ _ _ hk
  have hu : ∀ k, k < time.length →
      (time.map (uOf time)).getD k 0 = uOf time (time.getD k 0) :=
    fun k hk => getD_map_of_lt _ _ _ _ _ hk
  have hF : ∀ k, k < time.length →
      (time.map (FOf time)).getD k 0 = FOf time (time.getD k 0) :=
    fun k hk => getD_map_of_lt _ _ _ _ _ hk
  have ha : ∀ k, k < time.length →
      ((time.map (FOf time)).map (fun f => f / mass)).getD k 0 =
        FOf time (time.getD k 0) / mass := by
    intro k hk
    rw [getD_map_of_lt (fun f => f / mass) _ k 0 0 (by simpa using hk), hF k hk]
  have hx0 : (time.map (xOf time)).getD 0 0 = 0 := by
    rw [hx 0 hpos, ht0, xOf, hf]; norm_num
  have hu0 : (time.map (uOf time)).getD 0 0 = 0 := by
    rw [hu 0 hpos, ht0, uOf, hf]; norm_num
  have hxl : (time.map (xOf time)).getD (time.length - 1) 0 = 1 := by
    rw [hx _ hlast, htl, xOf, hf]; norm_num
  have hul : (time.map (uOf time)).getD (time.length - 1) 0 = 0 := by
    rw [hu _ hlast, htl, uOf, hf]; norm_num
  have hall : ∀ k, k < time.length →
      (0 ≤ (time.map (xOf time)).getD k 0 ∧ (time.map (xOf time)).getD k 0 ≤ 1) ∧
      (-100 ≤ (time.map (uOf time)).getD k 0 ∧ (time.map (uOf time)).getD k 0 ≤ 100) ∧
      (-100 ≤ ((time.map (FOf time)).map (fun f => f / mass)).getD k 0 ∧
        ((time.map (FOf time)).map (fun f => f / mass)).getD k 0 ≤ 100) ∧
      (-10 ≤ (time.map (FOf time)).getD k 0 ∧ (time.map (FOf time)).getD k 0 ≤ 10) := by
    intro k hk
    obtain ⟨hk0, hk2⟩ := sorted_between time 0 2 hs h0 hl k hk
    rw [hx k hk, hu k hk, ha k hk, hF k hk]
    exact ⟨xOf_bounds time hf _ hk0 hk2, uOf_bounds time hf _ hk0 hk2,
      (FOf_bounds time _).2, (FOf_bounds time _).1⟩
  refine ⟨hx0, hu0, hxl, hul, hall, ?_, ?_, ?_⟩
  · refine ⟨rfl, rfl, ?_, ?_⟩
    · intro p hp
      simp only [declaration, actual_solution, List.zip_cons_cons, List.zip_nil_right,
        List.mem_cons, List.mem_nil_iff, or_false] at hp
      rcases hp with rfl | rfl
      · refine ⟨fun k hk => (hall k hk).1, ?_, ?_⟩
        · intro b hb
          simp only [Option.some.injEq] at hb
          subst hb
          simp only [actual_solution]
          rw [hx0]; simp [Bounds.Contains, Bounds.single]
        · intro b hb
          simp only [Option.some.injEq] at hb
          subst hb
          simp only [actual_solution]
          rw [hxl]; simp [Bounds.Contains, Bounds.single]
      · refine ⟨fun k hk => (hall k hk).2.1, ?_, ?_⟩
        · intro b hb
          simp only [Option.some.injEq] at hb
          subst hb
          simp only [actual_solution]
          rw [hu0]; simp [Bounds.Contains, Bounds.single]
        · intro b hb
          simp only [Option.some.injEq] at hb
          subst hb
          simp only [actual_solution]
          rw [hul]; simp [Bounds.Contains, Bounds.single]
    · intro p hp
      simp only [declaration, actual_solution, List.zip_cons_cons, List.zip_nil_right,
        List.mem_cons, List.mem_nil_iff, or_false] at hp
      rcases hp with rfl | rfl
      · exact ⟨fun k hk => (hall k hk).2.2.1, fun b hb => by simp at hb,
          fun b hb => by simp at hb⟩
      · refine ⟨fun k hk => ?_, fun b hb => by simp at hb, fun b hb => by simp at hb⟩
        have := (hall k hk).2.2.2
        simpa [Bounds.Contains, Fmax] using this
  · rw [xOf, hf]; norm_num
  · rw [uOf, hf]; norm_num

theorem actual_solution_meets_declaration_witness :
    (([0, 1 / 2, 1, 2] : List ℚ).Sorted (· ≤ ·) ∧
      ([0, 1 / 2, 1, 2] : List ℚ)[0]? = some 0 ∧
      ([0, 1 / 2, 1, 2] : List ℚ)[([0, 1 / 2, 1, 2] : List ℚ).length - 1]? = some 2) ∧
    ((actual_solution [0, 1 / 2, 1, 2]).states.getD 0 []).getD 0 0 = 0 ∧
    ((actual_solution [0, 1 / 2, 1, 2]).states.getD 0 []).getD 3 0 = 1 ∧
    declaration.Admits (actual_solution [0, 1 / 2, 1, 2]) :=
  have hs : ([0, 1 / 2, 1, 2] : List ℚ).Sorted (· ≤ ·) := by
    simp [List.Sorted]; norm_num
  ⟨⟨hs, rfl, rfl⟩,
    (actual_solution_meets_declaration [0, 1 / 2, 1, 2] hs rfl rfl).1,
    (actual_solution_meets_declaration [0, 1 / 2, 1, 2] hs rfl rfl).2.2.1,
    (actual_solution_meets_declaration [0, 1 / 2, 1, 2] hs rfl rfl).2.2.2.2.2.1⟩

end SlidingMassPathConstraint

end tropter

namespace tropter

theorem mapM_option_eq_some {α β : Type} (f : α → Option β) (d : α) (e : β) :
    ∀ (qs : List α) (ys : List β), ys.length = qs.length →
      (∀ i, i < qs.length → f (qs.getD i d) = some (ys.getD i e)) →
      qs.mapM f = some ys := by
  intro qs
  induction qs with
  | nil =>
    intro ys hlen _
    have : ys = [] := List.length_eq_zero.mp hlen
    subst this
    rfl
  | cons q qs ih =>
    intro ys hlen h
    cases ys with
    | nil => simp at hlen
    | cons y ys =>
      have h0 := h 0 (by simp)
      simp only [List.getD_cons_zero] at h0
      have ht : qs.mapM f = some ys := by
        apply ih ys (by simpa using hlen)
        intro i hi
        have := h (i + 1) (by simpa using hi)
        simpa only [List.getD_cons_succ] using this
      rw [List.mapM_cons, h0, ht]
      rfl

theorem interp1_knot :
    ∀ (ts ys : List ℚ), ts.Sorted (· < ·) → ys.length = ts.length →
      ∀ i, i < ts.length → interp1 ts ys (ts.getD i 0) = some (ys.getD i 0) := by
  intro ts
  induction ts with
  | nil => intro ys _ _ i hi; simp at hi
  | cons t0 ts ih =>
    intro ys hs hlen i hi
    cases ys with
    | nil => simp at hlen
    | cons y0 ys =>
      cases ts with
      | nil =>
        have hys : ys = [] := by
          apply List.length_eq_zero.mp; simpa using hlen
        subst hys
        have hi0 : i = 0 := by simpa using hi
        subst hi0
        simp [interp1]
      | cons t1 ts =>
        cases ys with
        | nil => simp at hlen
        | cons y1 ys =>
          have hs' := List.sorted_cons.mp hs
          have h01 : t0 < t1 := hs'.1 t1 (by simp)
          match i, hi with
          | 0, _ =>
            simp only [List.getD_cons_zero, interp1, lt_irrefl, if_false, le_of_lt h01, if_true,
              sub_self, zero_div, mul_zero, add_zero]
          | 1, _ =>
            have hne : t1 - t0 ≠ 0 := sub_ne_zero.mpr (ne_of_gt h01)
            simp only [List.getD_cons_zero, List.getD_cons_succ, interp1, not_lt.mpr (le_of_lt h01),
              if_false, le_refl, if_true, div_self hne, mul_one]
            congr 1; ring
          | (j + 2), hj =>
            have hj' : j + 1 < (t1 :: ts).length := by simpa using hj
            have hrec := ih (y1 :: ys) hs'.2 (by simpa using hlen) (j + 1) hj'
            have hmem : (t1 :: ts).getD (j + 1) 0 ∈ ts := by
              rw [List.getD_cons_succ]
              have hjl : j < ts.length := by simpa using hj'
              rw [List.getD_eq_getElem _ _ hjl]
              exact List.getElem_mem hjl
            have hs2 := List.sorted_cons.mp hs'.2
            have hgt1 : t1 < (t1 :: ts).getD (j + 1) 0 := hs2.1 _ hmem
            have hgt0 : t0 < (t1 :: ts).getD (j + 1) 0 := lt_trans h01 hgt1
            change interp1 (t0 :: t1 :: ts) (y0 :: y1 :: ys) ((t1 :: ts).getD (j + 1) 0) =
              some ((y1 :: ys).getD (j + 1) 0)
            rw [interp1, if_neg (not_lt.mpr (le_of_lt hgt0)), if_neg (not_le.mpr hgt1)]
            exact hrec

theorem interp1_isSome :
    ∀ (ts ys : List ℚ), ys.length = ts.length → ∀ (a b tq : ℚ),
      ts.head? = some a → ts.getLast? = some b → a ≤ tq → tq ≤ b →
      ∃ v, interp1 ts ys tq = some v := by
  intro ts
  induction ts with
  | nil => intro ys _ a b tq h; simp at h
  | cons t0 ts ih =>
    intro ys hlen a b tq ha hb hatq htqb
    simp only [List.head?_cons, Option.some.injEq] at ha
    subst ha
    cases ys with
    | nil => simp at hlen
    | cons y0 ys =>
      cases ts with
      | nil =>
        have hys : ys = [] := by
          apply List.length_eq_zero.mp; simpa using hlen
        subst hys
        simp only [List.getLast?_singleton, Option.some.injEq] at hb
        subst hb
        have : tq = t0 := le_antisymm htqb hatq
        subst this
        exact ⟨y0, by simp [interp1]⟩
      | cons t1 ts =>
        cases ys with
        | nil => simp at hlen
        | cons y1 ys =>
          rw [interp1, if_neg (not_lt.mpr hatq)]
          by_cases h1 : tq ≤ t1
          · rw [if_pos h1]; exact ⟨_, rfl⟩
          · rw [if_neg h1]
            apply ih (y1 :: ys) (by simpa using hlen) t1 b tq (by simp)
            · rw [List.getLast?_cons_cons] at hb; exact hb
            · exact le_of_lt (not_le.mp h1)
            · exact htqb

theorem mapM_option_of_forall_mem {α β : Type} (f : α → Option β) (g : α → β) :
    ∀ (qs : List α), (∀ q ∈ qs, f q = some (g q)) → qs.mapM f = some (qs.map g) := by
  intro qs
  induction qs with
  | nil => intro _; rfl
  | cons q qs ih =>
    intro h
    rw [List.mapM_cons, h q (by simp), ih (fun x hx => h x (by simp [hx]))]
    rfl

theorem linspace_head? (n : Nat) (a b : ℚ) (hn : 1 ≤ n) : (linspace n a b).head? = some a := by
  have h0 : 0 < (linspace n a b).length := by rw [linspace_length]; omega
  rw [List.head?_eq_getElem?, List.getElem?_eq_getElem h0, ← List.getD_eq_getElem _ 0 h0,
    linspace_getD n a b 0 (by omega)]
  simp

theorem linspace_getLast? (n : Nat) (a b : ℚ) (hn : 2 ≤ n) :
    (linspace n a b).getLast? = some b := by
  have h0 : (linspace n a b).length - 1 < (linspace n a b).length := by
    rw [linspace_length]; omega
  have h := linspace_getD_last n a b hn
  rw [List.getLast?_eq_getElem?, List.getElem?_eq_getElem h0, ← List.getD_eq_getElem _ 0 h0,
    linspace_length, h]

theorem linspace_sorted (n : Nat) (a b : ℚ) (hn : 2 ≤ n) (hab : a < b) :
    (linspace n a b).Sorted (· < ·) := by
  unfold linspace
  have hd : (0 : ℚ) < (b - a) / ((n : ℚ) - 1) := by
    have : (2 : ℚ) ≤ (n : ℚ) := by exact_mod_cast hn
    apply div_pos <;> linarith
  apply List.Pairwise.map _ _ (List.pairwise_lt_range n)
  intro i j hij
  have : (i : ℚ) < (j : ℚ) := by exact_mod_cast hij
  nlinarith

theorem linspace_mem_range (n : Nat) (a b : ℚ) (hn : 2 ≤ n) (hab : a ≤ b) (q : ℚ)
    (hq : q ∈ linspace n a b) : a ≤ q ∧ q ≤ b := by
  unfold linspace at hq
  rw [List.mem_map] at hq
  obtain ⟨i, hi, rfl⟩ := hq
  rw [List.mem_range] at hi
  have hnq : (2 : ℚ) ≤ (n : ℚ) := by exact_mod_cast hn
  have hd : (0 : ℚ) < (n : ℚ) - 1 := by linarith
  have hiq : (i : ℚ) ≤ (n : ℚ) - 1 := by
    have : ((i + 1 : Nat) : ℚ) ≤ (n : ℚ) := by exact_mod_cast hi
    push_cast at this; linarith
  have hi0 : (0 : ℚ) ≤ (i : ℚ) := Nat.cast_nonneg i
  have hstep : 0 ≤ (b - a) / ((n : ℚ) - 1) := div_nonneg (by linarith) (le_of_lt hd)
  constructor
  · nlinarith
  · have h1 : (i : ℚ) * ((b - a) / ((n : ℚ) - 1)) ≤ ((n : ℚ) - 1) * ((b - a) / ((n : ℚ) - 1)) :=
      mul_le_mul_of_nonneg_right hiq hstep
    have h2 : ((n : ℚ) - 1) * ((b - a) / ((n : ℚ) - 1)) = b - a := by field_simp
    linarith

theorem linspace_coarse_knot (n m r : Nat) (a b : ℚ) (hn : 2 ≤ n) (hr : m - 1 = (n - 1) * r)
    (hm : 2 ≤ m) (j : Nat) (hj : j < n) :
    r * j < m ∧ (linspace n a b).getD j 0 = (linspace m a b).getD (r * j) 0 := by
  have hrj : r * j < m := by
    have h1 : r * j ≤ r * (n - 1) := Nat.mul_le_mul_left r (by omega)
    have h2 : r * (n - 1) = m - 1 := by rw [hr, Nat.mul_comm]
    omega
  refine ⟨hrj, ?_⟩
  rw [linspace_getD n a b j hj, linspace_getD m a b (r * j) hrj]
  have hnq : (2 : ℚ) ≤ (n : ℚ) := by exact_mod_cast hn
  have hmq : (2 : ℚ) ≤ (m : ℚ) := by exact_mod_cast hm
  have hn0 : ((n : ℚ) - 1) ≠ 0 := by intro h; linarith
  have hm0 : ((m : ℚ) - 1) ≠ 0 := by intro h; linarith
  have hrq : (m : ℚ) - 1 = ((n : ℚ) - 1) * (r : ℚ) := by
    have : ((m - 1 : Nat) : ℚ) = (((n - 1) * r : Nat) : ℚ) := by rw [hr]
    rw [Nat.cast_mul, Nat.cast_sub (by omega), Nat.cast_sub (by omega)] at this
    simpa using this
  push_cast
  rw [hrq]
  have hr0 : (r : ℚ) ≠ 0 := by
    intro h
    rw [h, mul_zero] at hrq
    exact hm0 hrq
  field_simp
  ring

/-- The resampled rows of an evenly spaced iterate: on a grid inside the time
range every row has an interpolated value at every point. -/
theorem interpRows_linspace (n m : Nat) (a b : ℚ) (hn : 2 ≤ n) (hm : 2 ≤ m) (hab : a < b)
    (rows : List (List ℚ)) (hrows : ∀ row ∈ rows, row.length = n) :
    interpRows (linspace n a b) rows (linspace m a b) =
      some (rows.map (fun row =>
        (linspace m a b).map (fun q => (interp1 (linspace n a b) row q).getD 0))) := by
  unfold interpRows
  apply mapM_option_of_forall_mem
  intro row hrow
  apply mapM_option_of_forall_mem
  intro q hq
  obtain ⟨hq1, hq2⟩ := linspace_mem_range m a b hm (le_of_lt hab) q hq
  obtain ⟨v, hv⟩ := interp1_isSome (linspace n a b) row
    (by rw [hrows row hrow, linspace_length]) a b q
    (linspace_head? n a b (by omega)) (linspace_getLast? n a b hn) hq1 hq2
  rw [hv]; rfl

/-- Resampling back from a finer evenly spaced grid that contains the coarse
knots gives the coarse rows again. -/
theorem interpRows_back (n m r : Nat) (a b : ℚ) (hn : 2 ≤ n) (hm : 2 ≤ m)
    (hr : m - 1 = (n - 1) * r) (hab : a < b)
    (rows : List (List ℚ)) (hrows : ∀ row ∈ rows, row.length = n) :
    interpRows (linspace m a b)
        (rows.map (fun row =>
          (linspace m a b).map (fun q => (interp1 (linspace n a b) row q).getD 0)))
        (linspace n a b) = some rows := by
  unfold interpRows
  apply mapM_option_eq_some _ [] []
  · simp
  · intro i hi
    have hi' : i < rows.length := by simpa using hi
    rw [getD_map_of_lt _ rows i [] [] hi']
    have hrow : rows.getD i [] ∈ rows := by
      rw [List.getD_eq_getElem _ _ hi']; exact List.getElem_mem hi'
    have hlen := hrows _ hrow
    generalize rows.getD i [] = row at hlen
    apply mapM_option_eq_some _ 0 0
    · rw [hlen, linspace_length]
    · intro j hj
      rw [linspace_length] at hj
      obtain ⟨hrj, hknot⟩ := linspace_coarse_knot n m r a b hn hr hm j hj
      have hfine := interp1_knot (linspace m a b)
        ((linspace m a b).map (fun q => (interp1 (linspace n a b) row q).getD 0))
        (linspace_sorted m a b hm hab) (by simp) (r * j) (by rw [linspace_length]; exact hrj)
      rw [hknot, hfine]
      rw [getD_map_of_lt _ (linspace m a b) (r * j) 0 0 (by rw [linspace_length]; exact hrj)]
      rw [← hknot]
      rw [interp1_knot (linspace n a b) row (linspace_sorted n a b hn hab)
        (by rw [hlen, linspace_length]) j (by rw [linspace_length]; exact hj)]
      rfl

/-- C2: interpolating an iterate to the number of time points it already has
returns the iterate itself, equal in every member (time, states, controls,
state names, control names), with no resampling. -/
theorem interpolate_same_size (it : OptimalControlIterate) (desired_num_columns : Int)
    (h : (it.time.length : Int) = desired_num_columns) :
    it.interpolate desired_num_columns = some it ∧
    ∀ out, it.interpolate desired_num_columns = some out →
      out.time = it.time ∧ out.states = it.states ∧ out.controls = it.controls ∧
      out.state_names = it.state_names ∧ out.control_names = it.control_names := by
  have h1 : it.interpolate desired_num_columns = some it := by
    unfold OptimalControlIterate.interpolate
    rw [if_pos h]
  refine ⟨h1, ?_⟩
  intro out hout
  rw [h1] at hout
  simp only [Option.some.injEq] at hout
  subst hout
  exact ⟨rfl, rfl, rfl, rfl, rfl⟩

theorem interpolate_same_size_witness :
    ((peakIterate.time.length : Int) = 3) ∧ peakIterate.interpolate 3 = some peakIterate :=
  ⟨rfl, (interpolate_same_size peakIterate 3 rfl).1⟩

/-- The result of interpolating an evenly spaced, well-formed iterate to another
number of points. -/
theorem interpolate_linspace (it : OptimalControlIterate) (n m : Nat) (a b : ℚ)
    (hn : 2 ≤ n) (hm : 2 ≤ m) (hnm : n ≠ m) (hab : a < b)
    (htime : it.time = linspace n a b) (hwf : it.WellFormed) :
    it.interpolate (m : Int) =
      some { time := linspace m a b
             states := it.states.map (fun row =>
               (linspace m a b).map (fun q => (interp1 (linspace n a b) row q).getD 0))
             controls := it.controls.map (fun row =>
               (linspace m a b).map (fun q => (interp1 (linspace n a b) row q).getD 0))
             state_names := it.state_names
             control_names := it.control_names } := by
  obtain ⟨hs, hc, _, _⟩ := hwf
  rw [htime, linspace_length] at hs hc
  unfold OptimalControlIterate.interpolate
  have h1 : ¬ ((it.time.length : Int) = (m : Int)) := by
    rw [htime, linspace_length]; exact_mod_cast hnm
  have h2 : ¬ ((m : Int) < 0) := by omega
  rw [if_neg h1, if_neg h2, htime, linspace_head? n a b (by omega), linspace_getLast? n a b hn]
  simp only [Int.toNat_ofNat]
  rw [interpRows_linspace n m a b hn hm hab it.states hs,
    interpRows_linspace n m a b hn hm hab it.controls hc]

/-- C4 fails as stated: the three-point iterate with values `0, 1, 0` at times
`0, 1/2, 1`, interpolated to four points and back to three, has the value `2/3`
at the middle knot, not `1`. -/
theorem interpolate_refine_then_back_loses_peak :
    (peakIterate.interpolate 4).bind (fun fine => fine.interpolate 3) =
      some { peakIterate with states := [[0, 2 / 3, 0]], controls := [[0, 2 / 3, 0]] } ∧
    (peakIterate.interpolate 4).bind (fun fine => fine.interpolate 3) ≠ some peakIterate := by
  with_unfolding_all decide

/-- C4 (as the model has it): for a well-formed iterate on an evenly spaced,
increasing time grid of `n ≥ 2` points and a finer count `m > n` whose grid
contains the original knots (`n - 1` divides `m - 1`), interpolating to `m`
points and back to `n` points returns the original iterate: same time, states
and controls (and names). -/
theorem interpolate_refine_then_back (it : OptimalControlIterate) (n m : Nat) (a b : ℚ)
    (hn : 2 ≤ n) (hm : n < m) (hdvd : (n - 1) ∣ (m - 1)) (hab : a < b)
    (htime : it.time = linspace n a b) (hwf : it.WellFormed) :
    (it.interpolate (m : Int)).bind (fun fine => fine.interpolate (n : Int)) = some it := by
  obtain ⟨r, hr⟩ := hdvd
  have hm2 : 2 ≤ m := by omega
  have hs := hwf.1
  have hc := hwf.2.1
  rw [htime, linspace_length] at hs hc
  rw [interpolate_linspace it n m a b hn hm2 (by omega) hab htime hwf]
  rw [Option.some_bind]
  unfold OptimalControlIterate.interpolate
  have h1 : ¬ (((linspace m a b).length : Int) = (n : Int)) := by
    rw [linspace_length]; omega
  have h2 : ¬ ((n : Int) < 0) := by omega
  simp only [if_neg h1, if_neg h2, linspace_head? m a b (by omega), linspace_getLast? m a b hm2,
    Int.toNat_ofNat]
  rw [interpRows_back n m r a b hn hm2 hr hab it.states hs,
    interpRows_back n m r a b hn hm2 hr hab it.controls hc]
  rw [← htime]

theorem interpolate_refine_then_back_witness :
    (2 ≤ 3 ∧ 3 < 5 ∧ (3 - 1) ∣ (5 - 1) ∧ (0 : ℚ) < 1 ∧ peakIterate.time = linspace 3 0 1 ∧
      peakIterate.WellFormed) ∧
    (peakIterate.interpolate ((5 : Nat) : Int)).bind
      (fun fine => fine.interpolate ((3 : Nat) : Int)) = some peakIterate :=
  have ht : peakIterate.time = linspace 3 0 1 := by with_unfolding_all decide
  have hw : peakIterate.WellFormed := by
    simp [OptimalControlIterate.WellFormed, peakIterate]
  ⟨⟨by decide, by decide, by decide, by norm_num, ht, hw⟩,
    interpolate_refine_then_back peakIterate 3 5 0 1 (by decide) (by decide) (by decide)
      (by norm_num) ht hw⟩

end tropter

namespace tropter

/-! ## The CSV file format -/

theorem digitChar_props (d : Nat) (hd : d < 10) :
    (Nat.digitChar d).isDigit = true ∧ (Nat.digitChar d).toNat - 48 = d := by
  interval_cases d <;> exact ⟨rfl, rfl⟩

theorem toDigitsCore_isDigit (fuel : Nat) :
    ∀ (n : Nat) (ds : List Char), (∀ c ∈ ds, c.isDigit = true) →
      ∀ c ∈ Nat.toDigitsCore 10 fuel n ds, c.isDigit = true := by
  induction fuel with
  | zero => intro n ds h c hc; exact h c (by simpa [Nat.toDigitsCore] using hc)
  | succ fuel ih =>
    intro n ds h c hc
    have hds : ∀ c ∈ Nat.digitChar (n % 10) :: ds, c.isDigit = true := by
      intro c hc
      rcases List.mem_cons.mp hc with rfl | hc
      · exact (digitChar_props _ (Nat.mod_lt _ (by decide))).1
      · exact h c hc
    simp only [Nat.toDigitsCore] at hc
    split_ifs at hc with h0
    · exact hds c hc
    · exact ih _ _ hds c hc

theorem toDigitsCore_ne_nil (fuel : Nat) :
    ∀ (n : Nat) (ds : List Char), (ds ≠ [] ∨ 0 < fuel) → Nat.toDigitsCore 10 fuel n ds ≠ [] := by
  induction fuel with
  | zero =>
    intro n ds h
    rcases h with h | h
    · simpa [Nat.toDigitsCore] using h
    · omega
  | succ fuel ih =>
    intro n ds _
    simp only [Nat.toDigitsCore]
    split_ifs with h0
    · simp
    · exact ih _ _ (Or.inl (by simp))

theorem toDigitsCore_value (fuel : Nat) :
    ∀ (n : Nat) (ds : List Char), n < fuel →
      (Nat.toDigitsCore 10 fuel n ds).foldl (fun acc c => 10 * acc + (c.toNat - 48)) 0 =
        ds.foldl (fun acc c => 10 * acc + (c.toNat - 48)) n := by
  induction fuel with
  | zero => intro n ds h; omega
  | succ fuel ih =>
    intro n ds hn
    have hd := (digitChar_props (n % 10) (Nat.mod_lt _ (by decide))).2
    simp only [Nat.toDigitsCore]
    split_ifs with h0
    · simp only [List.foldl_cons, hd]
      have : n % 10 = n := by
        have := Nat.div_add_mod n 10
        omega
      simp [this]
    · have hlt : n / 10 < fuel := by
        have := Nat.div_add_mod n 10
        omega
      rw [ih (n / 10) _ hlt]
      simp only [List.foldl_cons, hd]
      have := Nat.div_add_mod n 10
      rw [this]

theorem charsToNat_natToChars (n : Nat) : charsToNat (natToChars n) = some n := by
  unfold charsToNat natToChars Nat.toDigits
  have h1 : Nat.toDigitsCore 10 (n + 1) n [] ≠ [] :=
    toDigitsCore_ne_nil (n + 1) n [] (Or.inr (by omega))
  have h2 : (Nat.toDigitsCore 10 (n + 1) n []).all Char.isDigit = true := by
    rw [List.all_eq_true]
    exact toDigitsCore_isDigit (n + 1) n [] (by simp)
  rw [if_pos ⟨h1, h2⟩, toDigitsCore_value (n + 1) n [] (by omega)]
  rfl

theorem natToChars_isDigit (n : Nat) : ∀ c ∈ natToChars n, c.isDigit = true :=
  toDigitsCore_isDigit (n + 1) n [] (by simp)

theorem dropLeading_append : ∀ (p s : List Char), dropLeading p (p ++ s) = some s := by
  intro p
  induction p with
  | nil => intro s; cases s <;> rfl
  | cons c p ih => intro s; simp [dropLeading, ih]

theorem flatten_terminated_eq_intercalate (sep : Char) :
    ∀ (lines : List (List Char)),
      (lines.map (fun l => l ++ [sep])).flatten = [sep].intercalate (lines ++ [[]]) := by
  intro lines
  induction lines with
  | nil => rfl
  | cons l ls ih =>
    rw [List.map_cons, List.flatten_cons, ih]
    cases ls with
    | nil => simp [List.intercalate]
    | cons l2 ls => simp [List.intercalate, List.intersperse]

theorem not_mem_intercalate (c sep : Char) (hc : c ≠ sep) :
    ∀ (fields : List (List Char)), (∀ f ∈ fields, c ∉ f) → c ∉ [sep].intercalate fields := by
  intro fields
  induction fields with
  | nil => intro _; simp [List.intercalate]
  | cons f fs ih =>
    intro h
    cases fs with
    | nil => simpa [List.intercalate] using h f (by simp)
    | cons f2 fs =>
      have h1 := h f (by simp)
      have h2 := ih (fun g hg => h g (by simp [hg]))
      simp only [List.intercalate, List.intersperse, List.flatten_cons, List.mem_append,
        List.mem_singleton, not_or] at h2 ⊢
      exact ⟨h1, hc, h2⟩

theorem textLines_terminated (lines : List (List Char)) (h : ∀ l ∈ lines, '\n' ∉ l) :
    textLines ((lines.map (fun l => l ++ ['\n'])).flatten) = lines := by
  unfold textLines
  rw [flatten_terminated_eq_intercalate, List.splitOn_intercalate _ '\n' _ (by simp)]
  · simp
  · intro l hl
    rcases List.mem_append.mp hl with hl | hl
    · exact h l hl
    · simp at hl; subst hl; simp

theorem mapM_map_option {α β γ : Type} (row : α → β) (f : β → Option γ) (g : α → γ) :
    ∀ (l : List α), (∀ j ∈ l, f (row j) = some (g j)) →
      (l.map row).mapM f = some (l.map g) := by
  intro l
  induction l with
  | nil => intro _; rfl
  | cons a l ih =>
    intro h
    rw [List.map_cons, List.mapM_cons, h a (by simp), ih (fun x hx => h x (by simp [hx]))]
    rfl

theorem range_map_getD {α : Type} (d : α) (l : List α) :
    (List.range l.length).map (fun j => l.getD j d) = l := by
  apply List.ext_getElem
  · simp
  · intro i h1 h2
    simp [List.getElem?_eq_getElem h2]

theorem column_getD (m : List (List ℚ)) (j i : Nat) (hi : i < m.length) :
    (column m j).getD i 0 = (m.getD i []).getD j 0 := by
  unfold column
  rw [getD_map_of_lt _ m i [] 0 hi]

theorem column_length (m : List (List ℚ)) (j : Nat) : (column m j).length = m.length := by
  simp [column]

theorem column_mem (m : List (List ℚ)) (n j : Nat) (hm : ∀ row ∈ m, row.length = n)
    (hj : j < n) : ∀ v ∈ column m j, v ∈ m.flatten := by
  intro v hv
  unfold column at hv
  rw [List.mem_map] at hv
  obtain ⟨row, hrow, rfl⟩ := hv
  rw [List.mem_flatten]
  refine ⟨row, hrow, ?_⟩
  have hlt : j < row.length := by rw [hm row hrow]; exact hj
  rw [List.getD_eq_getElem _ _ hlt]
  exact List.getElem_mem hlt

theorem newline_not_mem_natToChars (n : Nat) : '\n' ∉ natToChars n := by
  intro h
  have := natToChars_isDigit n _ h
  exact absurd this (by decide)

theorem comma_not_mem_natToChars (n : Nat) : ',' ∉ natToChars n := by
  intro h
  have := natToChars_isDigit n _ h
  exact absurd this (by decide)

/-- The numbers written on the line of time point `j` are numbers of the
iterate. -/
theorem row_values_mem (x : OptimalControlIterate) (hwf : x.WellFormed) (j : Nat)
    (hj : j < x.time.length) :
    ∀ v ∈ x.time.getD j 0 :: (column x.states j ++ column x.controls j), v ∈ x.values := by
  intro v hv
  unfold OptimalControlIterate.values
  rcases List.mem_cons.mp hv with rfl | hv
  · rw [List.getD_eq_getElem _ _ hj]
    exact List.mem_append_left _ (List.mem_append_left _ (List.getElem_mem hj))
  · rcases List.mem_append.mp hv with hv | hv
    · exact List.mem_append_left _
        (List.mem_append_right _ (column_mem x.states _ j hwf.1 hj v hv))
    · exact List.mem_append_right _ (column_mem x.controls _ j hwf.2.1 hj v hv)

theorem read_rows (x : OptimalControlIterate) (hwf : x.WellFormed) (i : Nat)
    (hi : i < x.states.length) :
    ((List.range x.time.length).map
        (fun j => x.time.getD j 0 :: (column x.states j ++ column x.controls j))).map
      (fun r => r.getD (1 + i) 0) = x.states.getD i [] := by
  have hrow : x.states.getD i [] ∈ x.states := by
    rw [List.getD_eq_getElem _ _ hi]; exact List.getElem_mem hi
  have hlen := hwf.1 _ hrow
  rw [List.map_map, ← hlen]
  conv_rhs => rw [← range_map_getD 0 (x.states.getD i [])]
  apply List.map_congr_left
  intro j _
  simp only [Function.comp, Nat.add_comm 1 i, List.getD_cons_succ]
  rw [List.getD_append _ _ _ _ (by rw [column_length]; exact hi), column_getD _ _ _ hi]

theorem read_control_rows (x : OptimalControlIterate) (hwf : x.WellFormed) (i : Nat)
    (hi : i < x.controls.length) :
    ((List.range x.time.length).map
        (fun j => x.time.getD j 0 :: (column x.states j ++ column x.controls j))).map
      (fun r => r.getD (1 + x.states.length + i) 0) = x.controls.getD i [] := by
  have hrow : x.controls.getD i [] ∈ x.controls := by
    rw [List.getD_eq_getElem _ _ hi]; exact List.getElem_mem hi
  have hlen := hwf.2.1 _ hrow
  rw [List.map_map, ← hlen]
  conv_rhs => rw [← range_map_getD 0 (x.controls.getD i [])]
  apply List.map_congr_left
  intro j _
  have e : 1 + x.states.length + i = (x.states.length + i) + 1 := by omega
  simp only [Function.comp, e, List.getD_cons_succ]
  rw [List.getD_append_right _ _ _ _ (by rw [column_length]; omega), column_length,
    Nat.add_sub_cancel_left, column_getD _ _ _ hi]

theorem map_mk_toList (l : List String) : l.map (String.mk ∘ String.toList) = l := by
  induction l with
  | nil => rfl
  | cons a l ih => rw [List.map_cons, ih]; rfl

/-- The lines that `write` produces are the lines that `read` sees. -/
theorem textLines_write (fmt : ℚ → List Char) (x : OptimalControlIterate)
    (hwf : x.WellFormed)
    (hnames : ∀ s ∈ x.state_names ++ x.control_names, '\n' ∉ s.toList)
    (hvals : ∀ v ∈ x.values, '\n' ∉ fmt v) :
    textLines (x.write fmt) =
      ("num_states=".toList ++ natToChars x.states.length) ::
      ("num_controls=".toList ++ natToChars x.controls.length) ::
      csvLine ("time".toList :: (x.state_names ++ x.control_names).map String.toList) ::
      (List.range x.time.length).map (fun j =>
        csvLine ((x.time.getD j 0 :: (column x.states j ++ column x.controls j)).map fmt)) := by
  unfold OptimalControlIterate.write
  apply textLines_terminated
  intro l hl
  simp only [List.mem_cons, List.mem_map, List.mem_range] at hl
  rcases hl with rfl | rfl | rfl | ⟨j, hj, rfl⟩
  · intro h
    rcases List.mem_append.mp h with h | h
    · exact absurd h (by decide)
    · exact newline_not_mem_natToChars _ h
  · intro h
    rcases List.mem_append.mp h with h | h
    · exact absurd h (by decide)
    · exact newline_not_mem_natToChars _ h
  · apply not_mem_intercalate _ _ (by decide)
    intro f hf
    rcases List.mem_cons.mp hf with rfl | hf
    · decide
    · rw [List.mem_map] at hf
      obtain ⟨name, hname, rfl⟩ := hf
      exact hnames name hname
  · apply not_mem_intercalate _ _ (by decide)
    intro f hf
    have hf' : f ∈ (x.time.getD j 0 :: (column x.states j ++ column x.controls j)).map fmt := by
      simpa using hf
    rw [List.mem_map] at hf'
    obtain ⟨v, hv, rfl⟩ := hf'
    exact hvals v (row_values_mem x hwf j hj v hv)

end tropter

namespace tropter

/-! ## The fixed decimal number format -/

theorem fixedDigits_length : ∀ (w n : Nat), (fixedDigits w n).length = w := by
  intro w
  induction w with
  | zero => intro n; rfl
  | succ w ih => intro n; simp [fixedDigits, ih]

theorem fixedDigits_isDigit : ∀ (w n : Nat), ∀ c ∈ fixedDigits w n, c.isDigit = true := by
  intro w
  induction w with
  | zero => intro n c hc; simp [fixedDigits] at hc
  | succ w ih =>
    intro n c hc
    simp only [fixedDigits, List.mem_append, List.mem_singleton] at hc
    rcases hc with hc | rfl
    · exact ih _ c hc
    · exact (digitChar_props _ (Nat.mod_lt _ (by decide))).1

theorem fixedDigits_value : ∀ (w n a : Nat),
    (fixedDigits w n).foldl (fun acc c => 10 * acc + (c.toNat - 48)) a =
      a * 10 ^ w + n % 10 ^ w := by
  intro w
  induction w with
  | zero => intro n a; simp [fixedDigits, Nat.mod_one]
  | succ w ih =>
    intro n a
    have hd := (digitChar_props (n % 10) (Nat.mod_lt _ (by decide))).2
    simp only [fixedDigits, List.foldl_append, List.foldl_cons, List.foldl_nil, ih, hd]
    have hm : n % 10 ^ (w + 1) = n % 10 + 10 * (n / 10 % 10 ^ w) := by
      rw [pow_succ, Nat.mul_comm (10 ^ w) 10, Nat.mod_mul]
    rw [hm, pow_succ]
    ring

theorem digitsValue_fixedDigits (w n : Nat) :
    digitsValue (fixedDigits w n) = some (n % 10 ^ w) := by
  unfold digitsValue
  have h : (fixedDigits w n).all Char.isDigit = true := by
    rw [List.all_eq_true]; exact fixedDigits_isDigit w n
  rw [if_pos h, fixedDigits_value]
  simp

theorem not_mem_of_isDigit (c : Char) (hc : c.isDigit = false) (l : List Char)
    (hl : ∀ d ∈ l, d.isDigit = true) : c ∉ l := by
  intro h
  have := hl c h
  rw [hc] at this
  exact absurd this (by decide)

theorem charsToNat_ne_minus (n : Nat) :
    ∃ c r, natToChars n = c :: r ∧ c ≠ '-' := by
  have hne : natToChars n ≠ [] := toDigitsCore_ne_nil (n + 1) n [] (Or.inr (by omega))
  cases h : natToChars n with
  | nil => exact absurd h hne
  | cons c r =>
    refine ⟨c, r, rfl, ?_⟩
    intro hc
    have := natToChars_isDigit n c (by rw [h]; simp)
    rw [hc] at this
    exact absurd this (by decide)

/-- The unsigned text of `n` units `10^-p` reads back as `n / 10^p`. -/
theorem parseUnsigned_units (p n : Nat) :
    parseUnsigned (natToChars (n / 10 ^ p) ++
        (if p = 0 then [] else '.' :: fixedDigits p (n % 10 ^ p))) =
      some ((n : ℚ) / 10 ^ p) := by
  have hdot : '.' ∉ natToChars (n / 10 ^ p) :=
    not_mem_of_isDigit _ (by decide) _ (natToChars_isDigit _)
  by_cases hp : p = 0
  · subst hp
    rw [if_pos rfl]
    simp only [pow_zero, Nat.div_one, List.append_nil] at hdot ⊢
    have hs : (natToChars n).splitOn '.' = [natToChars n] := by
      have := List.splitOn_intercalate [natToChars n] '.'
        (by intro l hl; simp at hl; subst hl; exact hdot) (by simp)
      simpa [List.intercalate] using this
    unfold parseUnsigned
    simp only [hs, charsToNat_natToChars, Option.map_some']
    simp
  · have hdot2 : '.' ∉ fixedDigits p (n % 10 ^ p) :=
      not_mem_of_isDigit _ (by decide) _ (fixedDigits_isDigit _ _)
    have hs : (natToChars (n / 10 ^ p) ++ '.' :: fixedDigits p (n % 10 ^ p)).splitOn '.' =
        [natToChars (n / 10 ^ p), fixedDigits p (n % 10 ^ p)] := by
      have := List.splitOn_intercalate
        [natToChars (n / 10 ^ p), fixedDigits p (n % 10 ^ p)] '.'
        (by
          intro l hl
          simp only [List.mem_cons, List.mem_singleton, List.mem_nil_iff, or_false] at hl
          rcases hl with rfl | rfl
          · exact hdot
          · exact hdot2)
        (by simp)
      simpa [List.intercalate, List.intersperse] using this
    unfold parseUnsigned
    simp only [if_neg hp, hs, charsToNat_natToChars, digitsValue_fixedDigits,
      fixedDigits_length]
    congr 1
    have hpos : (0 : ℚ) < 10 ^ p := by positivity
    have hmod : n % 10 ^ p % 10 ^ p = n % 10 ^ p := Nat.mod_mod _ _
    rw [hmod]
    have hsplit : (n : ℚ) = ((10 ^ p * (n / 10 ^ p) + n % 10 ^ p : Nat) : ℚ) := by
      rw [Nat.div_add_mod]
    rw [eq_div_iff (ne_of_gt hpos)]
    conv_rhs => rw [hsplit]
    push_cast
    field_simp
    ring

/-- The printed number reads back as the number rounded to the precision. -/
theorem parseFixed_fmtFixed (p : Nat) (v : ℚ) :
    parseFixed (fmtFixed p v) = some (roundTo p v) := by
  unfold fmtFixed roundTo
  generalize roundUnits p v = z
  by_cases hz : z < 0
  · rw [if_pos hz, List.append_assoc]
    simp only [List.singleton_append, parseFixed, if_true, parseUnsigned_units,
      Option.map_some']
    congr 1
    have : ((z.natAbs : Nat) : ℚ) = -(z : ℚ) := by
      have h1 : ((z.natAbs : Nat) : ℤ) = -z := by omega
      rw [← Int.cast_natCast, h1, Int.cast_neg]
    rw [this]
    ring
  · rw [if_neg hz, List.nil_append]
    obtain ⟨c, r, hcr, hc⟩ := charsToNat_ne_minus (z.natAbs / 10 ^ p)
    have hpu := parseUnsigned_units p z.natAbs
    rw [hcr] at hpu ⊢
    simp only [List.cons_append] at hpu ⊢
    simp only [parseFixed, if_neg hc, hpu]
    congr 2
    have h1 : ((z.natAbs : Nat) : ℤ) = z := by omega
    rw [← Int.cast_natCast, h1]

theorem roundUnits_roundTo (p : Nat) (v : ℚ) :
    roundUnits p (roundTo p v) = roundUnits p v := by
  unfold roundTo
  generalize roundUnits p v = z
  unfold roundUnits
  have hpos : (10 : ℚ) ^ p ≠ 0 := by positivity
  rw [div_mul_cancel₀ _ hpos, Int.floor_eq_iff]
  constructor <;> linarith

theorem roundTo_roundTo (p : Nat) (v : ℚ) : roundTo p (roundTo p v) = roundTo p v := by
  unfold roundTo
  rw [show roundUnits p ((roundUnits p v : ℚ) / 10 ^ p) = roundUnits p v from
    roundUnits_roundTo p v]

theorem fmtFixed_roundTo (p : Nat) (v : ℚ) : fmtFixed p (roundTo p v) = fmtFixed p v := by
  unfold fmtFixed
  rw [roundUnits_roundTo]

theorem roundTo_of_den (p : Nat) (v : ℚ) (h : (v * 10 ^ p).den = 1) : roundTo p v = v := by
  have hz : ((v * 10 ^ p).num : ℚ) = v * 10 ^ p := Rat.coe_int_num_of_den_eq_one h
  have hpos : (10 : ℚ) ^ p ≠ 0 := by positivity
  have hu : roundUnits p v = (v * 10 ^ p).num := by
    unfold roundUnits
    rw [Int.floor_eq_iff]
    constructor <;> linarith
  unfold roundTo
  rw [hu, hz, mul_div_assoc, div_self hpos, mul_one]

theorem fmtFixed_chars (p : Nat) (v : ℚ) : ∀ c ∈ fmtFixed p v,
    c = '-' ∨ c = '.' ∨ c.isDigit = true := by
  intro c hc
  unfold fmtFixed at hc
  simp only [List.mem_append] at hc
  rcases hc with (hc | hc) | hc
  · split_ifs at hc
    · simp at hc; exact Or.inl hc
    · simp at hc
  · exact Or.inr (Or.inr (natToChars_isDigit _ c hc))
  · split_ifs at hc
    · simp at hc
    · rcases List.mem_cons.mp hc with rfl | hc
      · exact Or.inr (Or.inl rfl)
      · exact Or.inr (Or.inr (fixedDigits_isDigit _ _ c hc))

theorem fmtFixed_no_separator (p : Nat) (v : ℚ) : ',' ∉ fmtFixed p v ∧ '\n' ∉ fmtFixed p v := by
  constructor
  · intro h
    rcases fmtFixed_chars p v _ h with h | h | h
    · exact absurd h (by decide)
    · exact absurd h (by decide)
    · exact absurd h (by decide)
  · intro h
    rcases fmtFixed_chars p v _ h with h | h | h
    · exact absurd h (by decide)
    · exact absurd h (by decide)
    · exact absurd h (by decide)

/-- A binary fraction with at most `p` binary places has at most `p` decimal
places. -/
theorem den_decimal_of_binary (p : Nat) (v : ℚ) (h : (v * 2 ^ p).den = 1) :
    (v * 10 ^ p).den = 1 := by
  have hz : ((v * 2 ^ p).num : ℚ) = v * 2 ^ p := Rat.coe_int_num_of_den_eq_one h
  have e : v * 10 ^ p = (((v * 2 ^ p).num * 5 ^ p : ℤ) : ℚ) := by
    push_cast
    rw [hz, mul_assoc, ← mul_pow]
    norm_num
  rw [e]
  exact Rat.den_intCast _

end tropter

namespace tropter

/-- Reading what was written with a number format `fmt` gives the iterate back
when its names hold no separator and `parse` reads each of its numbers back from
the separator-free text that `fmt` prints for it. -/
theorem read_write_of_codec (fmt : ℚ → List Char) (parse : List Char → Option ℚ)
    (x : OptimalControlIterate) (hwf : x.WellFormed)
    (hnames : ∀ s ∈ x.state_names ++ x.control_names, ',' ∉ s.toList ∧ '\n' ∉ s.toList)
    (hvals : ∀ v ∈ x.values, parse (fmt v) = some v ∧ ',' ∉ fmt v ∧ '\n' ∉ fmt v) :
    OptimalControlIterate.read parse (x.write fmt) = some x := by
  have hlines := textLines_write fmt x hwf (fun s hs => (hnames s hs).2)
    (fun v hv => (hvals v hv).2.2)
  have hcols : (csvLine ("time".toList ::
      (x.state_names ++ x.control_names).map String.toList)).splitOn ',' =
      "time".toList :: (x.state_names ++ x.control_names).map String.toList := by
    unfold csvLine
    apply List.splitOn_intercalate _ ',' _ (by simp)
    intro f hf
    rcases List.mem_cons.mp hf with rfl | hf
    · decide
    · rw [List.mem_map] at hf
      obtain ⟨name, hname, rfl⟩ := hf
      exact (hnames name hname).1
  have hdata : ((List.range x.time.length).map (fun j =>
      csvLine ((x.time.getD j 0 :: (column x.states j ++ column x.controls j)).map fmt))).mapM
        (fun r => (r.splitOn ',').mapM parse) =
      some ((List.range x.time.length).map
        (fun j => x.time.getD j 0 :: (column x.states j ++ column x.controls j))) := by
    apply mapM_map_option
    intro j hj
    rw [List.mem_range] at hj
    have hin := row_values_mem x hwf j hj
    unfold csvLine
    rw [List.splitOn_intercalate _ ',' _ (by simp)]
    · have := mapM_map_option fmt parse id
        (x.time.getD j 0 :: (column x.states j ++ column x.controls j))
        (fun v hv => (hvals v (hin v hv)).1)
      rw [this, List.map_id]
    · intro f hf
      rw [List.mem_map] at hf
      obtain ⟨v, hv, rfl⟩ := hf
      exact (hvals v (hin v hv)).2.1
  have hlen : ((List.range x.time.length).map
      (fun j => x.time.getD j 0 :: (column x.states j ++ column x.controls j))).all
        (fun r => decide (r.length = 1 + x.states.length + x.controls.length)) = true := by
    rw [List.all_eq_true]
    intro r hr
    rw [List.mem_map] at hr
    obtain ⟨j, _, rfl⟩ := hr
    simp [column_length]
    omega
  have hcount : ¬ (("time".toList :: (x.state_names ++ x.control_names).map String.toList).length ≠
      1 + x.states.length + x.controls.length) := by
    simp [hwf.2.2.1, hwf.2.2.2]
    omega
  unfold OptimalControlIterate.read
  rw [hlines]
  simp only [dropLeading_append, Option.some_bind, charsToNat_natToChars, hcols, if_neg hcount,
    hdata, hlen, if_true]
  have htime : ((List.range x.time.length).map
      (fun j => x.time.getD j 0 :: (column x.states j ++ column x.controls j))).map
        (fun r => r.getD 0 0) = x.time := by
    rw [List.map_map]
    exact range_map_getD 0 x.time
  have hstates : (List.range x.states.length).map (fun i =>
      ((List.range x.time.length).map
        (fun j => x.time.getD j 0 :: (column x.states j ++ column x.controls j))).map
          (fun r => r.getD (1 + i) 0)) = x.states := by
    conv_rhs => rw [← range_map_getD [] x.states]
    apply List.map_congr_left
    intro i hi
    exact read_rows x hwf i (List.mem_range.mp hi)
  have hcontrols : (List.range x.controls.length).map (fun i =>
      ((List.range x.time.length).map
        (fun j => x.time.getD j 0 :: (column x.states j ++ column x.controls j))).map
          (fun r => r.getD (1 + x.states.length + i) 0)) = x.controls := by
    conv_rhs => rw [← range_map_getD [] x.controls]
    apply List.map_congr_left
    intro i hi
    exact read_control_rows x hwf i (List.mem_range.mp hi)
  have hsn : ((("time".toList :: (x.state_names ++ x.control_names).map String.toList).drop 1).take
      x.states.length).map String.mk = x.state_names := by
    rw [List.drop_one, List.tail_cons, ← List.map_take, ← hwf.2.2.1, List.take_left',
      List.map_map]
    · exact map_mk_toList _
    · rfl
  have hcn : (("time".toList :: (x.state_names ++ x.control_names).map String.toList).drop
      (1 + x.states.length)).map String.mk = x.control_names := by
    rw [Nat.add_comm 1, List.drop_succ_cons, ← List.map_drop, ← hwf.2.2.1, List.drop_left',
      List.map_map]
    · exact map_mk_toList _
    · rfl
  rw [htime, hstates, hcontrols, hsn, hcn]

theorem mapValues_wellFormed (g : ℚ → ℚ) (x : OptimalControlIterate) (hwf : x.WellFormed) :
    (x.mapValues g).WellFormed := by
  obtain ⟨h1, h2, h3, h4⟩ := hwf
  refine ⟨?_, ?_, ?_, ?_⟩
  · intro row hrow
    simp only [OptimalControlIterate.mapValues, List.mem_map] at hrow
    obtain ⟨r, hr, rfl⟩ := hrow
    simp [OptimalControlIterate.mapValues, h1 r hr]
  · intro row hrow
    simp only [OptimalControlIterate.mapValues, List.mem_map] at hrow
    obtain ⟨r, hr, rfl⟩ := hrow
    simp [OptimalControlIterate.mapValues, h2 r hr]
  · simpa [OptimalControlIterate.mapValues] using h3
  · simpa [OptimalControlIterate.mapValues] using h4

theorem mapValues_values (g : ℚ → ℚ) (x : OptimalControlIterate) :
    ∀ v ∈ (x.mapValues g).values, ∃ u ∈ x.values, v = g u := by
  intro v hv
  simp only [OptimalControlIterate.values, OptimalControlIterate.mapValues, List.mem_append,
    List.mem_map, List.mem_flatten] at hv ⊢
  rcases hv with (⟨u, hu, rfl⟩ | ⟨l, ⟨r, hr, rfl⟩, hv⟩) | ⟨l, ⟨r, hr, rfl⟩, hv⟩
  · exact ⟨u, Or.inl (Or.inl hu), rfl⟩
  · rw [List.mem_map] at hv
    obtain ⟨u, hu, rfl⟩ := hv
    exact ⟨u, Or.inl (Or.inr ⟨r, hr, hu⟩), rfl⟩
  · rw [List.mem_map] at hv
    obtain ⟨u, hu, rfl⟩ := hv
    exact ⟨u, Or.inr ⟨r, hr, hu⟩, rfl⟩

theorem column_map (g : ℚ → ℚ) (m : List (List ℚ)) (n j : Nat)
    (hm : ∀ row ∈ m, row.length = n) (hj : j < n) :
    column (m.map (fun row => row.map g)) j = (column m j).map g := by
  unfold column
  rw [List.map_map, List.map_map]
  apply List.map_congr_left
  intro row hrow
  simp only [Function.comp]
  exact getD_map_of_lt g row j 0 0 (by rw [hm row hrow]; exact hj)

/-- Numbers that print alike give the same file. -/
theorem write_mapValues (fmt : ℚ → List Char) (g : ℚ → ℚ) (x : OptimalControlIterate)
    (hwf : x.WellFormed) (hg : ∀ v, fmt (g v) = fmt v) :
    (x.mapValues g).write fmt = x.write fmt := by
  have hrow : ∀ j ∈ List.range x.time.length,
      csvLine (fmt ((x.time.map g).getD j 0) ::
        (column (x.states.map (fun row => row.map g)) j ++
          column (x.controls.map (fun row => row.map g)) j).map fmt) =
      csvLine (fmt (x.time.getD j 0) :: (column x.states j ++ column x.controls j).map fmt) := by
    intro j hj
    rw [List.mem_range] at hj
    rw [getD_map_of_lt g x.time j 0 0 hj, hg, column_map g x.states _ j hwf.1 hj,
      column_map g x.controls _ j hwf.2.1 hj, ← List.map_append, List.map_map]
    congr 2
    apply List.map_congr_left
    intro v _
    exact hg v
  unfold OptimalControlIterate.write
  simp only [OptimalControlIterate.mapValues, List.length_map]
  rw [List.map_congr_left hrow]

/-- C3 (as the model has it): for a well-formed iterate whose names contain no
comma and no line break, written with numbers in fixed decimal representation of
`p` places, reading the written file yields the iterate with every number
rounded to `p` decimal places; so when the representation is sufficient for the
numbers of the iterate (each has at most `p` decimal places), reading yields
the iterate itself, `read(write(x)) = x`; this is so whenever the numbers are
binary fractions of at most `p` binary places, as floating-point numbers are. -/
theorem read_write (p : Nat) (x : OptimalControlIterate) (hwf : x.WellFormed)
    (hnames : ∀ s ∈ x.state_names ++ x.control_names, ',' ∉ s.toList ∧ '\n' ∉ s.toList) :
    OptimalControlIterate.read parseFixed (x.write (fmtFixed p)) =
      some (x.mapValues (roundTo p)) ∧
    ((∀ v ∈ x.values, (v * 10 ^ p).den = 1) →
      OptimalControlIterate.read parseFixed (x.write (fmtFixed p)) = some x) ∧
    ((∀ v ∈ x.values, (v * 2 ^ p).den = 1) →
      OptimalControlIterate.read parseFixed (x.write (fmtFixed p)) = some x) := by
  have hmain : OptimalControlIterate.read parseFixed (x.write (fmtFixed p)) =
      some (x.mapValues (roundTo p)) := by
    rw [← write_mapValues (fmtFixed p) (roundTo p) x hwf (fmtFixed_roundTo p)]
    apply read_write_of_codec (fmtFixed p) parseFixed (x.mapValues (roundTo p))
      (mapValues_wellFormed _ x hwf) hnames
    intro v hv
    obtain ⟨u, _, rfl⟩ := mapValues_values (roundTo p) x v hv
    refine ⟨?_, fmtFixed_no_separator p _⟩
    rw [parseFixed_fmtFixed, roundTo_roundTo]
  suffices hexact : (∀ v ∈ x.values, (v * 10 ^ p).den = 1) →
      OptimalControlIterate.read parseFixed (x.write (fmtFixed p)) = some x from
    ⟨hmain, hexact, fun hbin => hexact (fun v hv => den_decimal_of_binary p v (hbin v hv))⟩
  intro hden
  rw [hmain]
  congr 1
  have hid : ∀ l : List ℚ, (∀ v ∈ l, v ∈ x.values) → l.map (roundTo p) = l := by
    intro l hl
    conv_rhs => rw [← List.map_id l]
    apply List.map_congr_left
    intro v hv
    exact roundTo_of_den p v (hden v (hl v hv))
  have hrows : ∀ m : List (List ℚ), (∀ row ∈ m, ∀ v ∈ row, v ∈ x.values) →
      m.map (fun row => row.map (roundTo p)) = m := by
    intro m hm
    conv_rhs => rw [← List.map_id m]
    apply List.map_congr_left
    intro row hrow
    exact hid row (hm row hrow)
  have ht : x.time.map (roundTo p) = x.time :=
    hid _ (fun v hv => by
      unfold OptimalControlIterate.values
      exact List.mem_append_left _ (List.mem_append_left _ hv))
  have hs : x.states.map (fun row => row.map (roundTo p)) = x.states :=
    hrows _ (fun row hrow v hv => by
      unfold OptimalControlIterate.values
      exact List.mem_append_left _ (List.mem_append_right _
        (List.mem_flatten.mpr ⟨row, hrow, hv⟩)))
  have hc : x.controls.map (fun row => row.map (roundTo p)) = x.controls :=
    hrows _ (fun row hrow v hv => by
      unfold OptimalControlIterate.values
      exact List.mem_append_right _ (List.mem_flatten.mpr ⟨row, hrow, hv⟩))
  unfold OptimalControlIterate.mapValues
  rw [ht, hs, hc]

theorem read_write_witness :
    (plainIterate.WellFormed ∧
      (∀ s ∈ plainIterate.state_names ++ plainIterate.control_names,
        ',' ∉ s.toList ∧ '\n' ∉ s.toList) ∧
      (∀ v ∈ plainIterate.values, (v * 10 ^ 2).den = 1)) ∧
    OptimalControlIterate.read parseFixed (plainIterate.write (fmtFixed 2)) =
      some plainIterate ∧
    OptimalControlIterate.read parseFixed (plainIterate.write (fmtFixed 1)) =
      some (plainIterate.mapValues (roundTo 1)) :=
  have hw : plainIterate.WellFormed := by
    simp [OptimalControlIterate.WellFormed, plainIterate]
  have hn : ∀ s ∈ plainIterate.state_names ++ plainIterate.control_names,
      ',' ∉ s.toList ∧ '\n' ∉ s.toList := by
    with_unfolding_all decide
  have hv : ∀ v ∈ plainIterate.values, (v * 10 ^ 2).den = 1 := by
    with_unfolding_all decide
  ⟨⟨hw, hn, hv⟩, (read_write 2 plainIterate hw hn).2.1 hv, (read_write 1 plainIterate hw hn).1⟩

/-- C3 fails as stated: the well-formed iterate `commaIterate`, whose numbers
are whole and are read back exactly, has the state name `a,b`; the file written
for it is rejected on reading (its header has four columns for one state and
one control), and it is the very file written for `commaIterate2`, a different
iterate. -/
theorem read_write_comma_in_name :
    commaIterate.WellFormed ∧
    (∀ v ∈ commaIterate.values, parseFixed (fmtFixed 2 v) = some v) ∧
    OptimalControlIterate.read parseFixed (commaIterate.write (fmtFixed 2)) ≠
      some commaIterate ∧
    OptimalControlIterate.read parseFixed (commaIterate.write (fmtFixed 2)) = none ∧
    commaIterate ≠ commaIterate2 ∧
    commaIterate.write (fmtFixed 2) = commaIterate2.write (fmtFixed 2) := by
  refine ⟨?_, ?_, ?_, ?_, ?_, ?_⟩
  · simp [OptimalControlIterate.WellFormed, commaIterate]
  · with_unfolding_all decide
  · with_unfolding_all decide
  · with_unfolding_all decide
  · with_unfolding_all decide
  · with_unfolding_all decide

end tropter
